import Mathlib

/-!
Verification of the fixed-size arena allocator in `src/main.c`.

The C program threads a singly linked list of block headers through a
static byte buffer `memory[MEMORY_SIZE]`.  Blocks appear in the list in
strictly increasing arena-offset order, and consecutive blocks are
physically adjacent: block `i+1`'s header begins exactly where block `i`'s
payload ends.  We therefore embed the free list as a Lean `List Block`
whose order is arena order; the arena offset of every block is recovered
by summing the extents (`header_size + size`) of the blocks before it.
The `next` pointer of the C struct is the list structure itself.

The global state (`Block* freeList`, initially `NULL`) is embedded as
`Option (List Block)`: `none` is the uninitialized allocator.  Pointers
returned by `allocate` are embedded as integer arena offsets of the
payload (the byte immediately after the chosen header), exactly the value
`(unsigned char*)current + sizeof(Block) - memory` of the C code.

The arena capacity `MEMORY_SIZE` and the header size `sizeof(Block)` are
kept symbolic (`C` and `H`); the reference values are `C = 102400` and
`H = 16` (two 4-byte ints plus one 8-byte pointer on a 64-bit target).
All arithmetic is on `Int`, matching C `int` in the overflow-free range
the arena-bounded states inhabit.
-/

/-- One block header: `int size; int free; struct Block* next;`.
The `next` field is represented by the position in the embedding list. -/
structure Block where
  size : Int
  free : Bool
  deriving DecidableEq, Repr

/-- Reference arena capacity: `#define MEMORY_SIZE 102400`. -/
def MEMORY_SIZE : Int := 102400

/-- Reference header size: `sizeof(Block)` on a 64-bit target. -/
def HDR : Int := 16

/-- The C function `initialize()`: one free block covering the arena minus one header. -/
def initList (C H : Int) : List Block :=
  [⟨C - H, true⟩]

/-- `splitBlock(fittingBlock, size)`: the chosen block shrunk to `size`
and marked allocated, followed by the carved-off free remainder of size
`old_size - size - sizeof(Block)`.  The remainder's `next` is the old
`fittingBlock->next`, i.e. the rest of the list follows it. -/
def splitBlock (H : Int) (b : Block) (size : Int) : List Block :=
  [⟨size, false⟩, ⟨b.size - size - H, true⟩]

/-- The first-fit search loop of `allocate`, together with the mutation it
performs at the found block.  Returns the updated list and the index of
the chosen block, or `none` when no block satisfies
`current->free && current->size >= size`. -/
def allocGo (H size : Int) : List Block → Option (List Block × Nat)
  | [] => none
  | b :: rest =>
    if b.free ∧ size ≤ b.size then
      if size + H < b.size then
        some (splitBlock H b size ++ rest, 0)
      else
        some ({ b with free := false } :: rest, 0)
    else
      match allocGo H size rest with
      | none => none
      | some (l, i) => some (b :: l, i + 1)

/-- Arena offset of the header of block `i` in list `l`: the sum of the
extents `H + size` of the blocks before it.  Block 0 sits at offset 0. -/
def blockStart (H : Int) : List Block → Nat → Int
  | _, 0 => 0
  | [], _ + 1 => 0
  | b :: rest, i + 1 => H + b.size + blockStart H rest i

/-- `int* allocate(int size)`.  Returns the new allocator state and the
payload offset of the served block (`none` embeds the C `NULL` return).
Rejects `size <= 0 || size > MEMORY_SIZE` before touching the state;
otherwise lazily initializes, then runs the first-fit loop. -/
def allocate (C H size : Int) (st : Option (List Block)) :
    Option (List Block) × Option Int :=
  if size ≤ 0 ∨ C < size then (st, none)
  else
    let l := match st with
      | none => initList C H
      | some l => l
    match allocGo H size l with
    | none => (some l, none)
    | some (l2, i) => (some l2, some (blockStart H l i + H))

/-- `mergeFreeBlocks()`: one pass from the head; whenever the current
block and its successor are both free, absorb the successor
(`current->size += sizeof(Block) + current->next->size`) and stay at the
current block; otherwise advance. -/
def mergeFreeBlocks (H : Int) : List Block → List Block
  | [] => []
  | [b] => [b]
  | a :: b :: rest =>
    if a.free ∧ b.free then
      mergeFreeBlocks H ({ a with size := a.size + H + b.size } :: rest)
    else
      a :: mergeFreeBlocks H (b :: rest)
termination_by l => l.length

/-- Mark free the block whose header starts at arena offset `p`, walking
the list while accumulating offsets (`off` is the offset of the block at
the head of the remaining list).  This is `block->free = 1` of
`deallocate` for a reference obtained from this allocator; a `p` matching
no live header is undefined behavior in C and leaves the list unchanged
here. -/
def markFree (H p : Int) : Int → List Block → List Block
  | _, [] => []
  | off, b :: rest =>
    if off = p then { b with free := true } :: rest
    else b :: markFree H p (off + H + b.size) rest

/-- `void deallocate(int* ptr)`: a `NULL` pointer is a no-op; otherwise
recover the header at `ptr - sizeof(Block)`, mark it free, and run the
coalescing pass.  With `freeList == NULL` the pass scans nothing and the
state stays uninitialized. -/
def deallocate (H : Int) (ptr : Option Int) (st : Option (List Block)) :
    Option (List Block) :=
  match ptr, st with
  | none, _ => st
  | some _, none => none
  | some p, some l => some (mergeFreeBlocks H (markFree H (p - H) 0 l))

/-- A client-visible call to the allocator. -/
inductive Op where
  | alloc (size : Int)
  | dealloc (ptr : Option Int)
  deriving DecidableEq, Repr

/-- One call, observing only the state. -/
def step (C H : Int) (st : Option (List Block)) : Op → Option (List Block)
  | .alloc size => (allocate C H size st).1
  | .dealloc ptr => deallocate H ptr st

/-- A sequence of calls from a given state. -/
def run (C H : Int) (st : Option (List Block)) : List Op → Option (List Block)
  | [] => st
  | op :: ops => run C H (step C H st op) ops

/-- Total number of arena bytes occupied by the blocks of `l`, header
included: the offset one past the end of the last block's payload. -/
def extent (H : Int) (l : List Block) : Int :=
  (l.map (fun b => H + b.size)).sum

/-- The blocks of `l`, laid out contiguously from offset 0 (as the list
embedding does by construction), exactly cover `[0, C)`: every size is
non-negative and the last block ends at `C`. -/
def covers (C H : Int) (l : List Block) : Prop :=
  extent H l = C ∧ ∀ b ∈ l, 0 ≤ b.size

/-- No two list-adjacent blocks are both free. -/
def noAdjFree (l : List Block) : Prop :=
  l.Chain' fun a b => ¬(a.free = true ∧ b.free = true)

instance : DecidablePred noAdjFree := fun l =>
  inferInstanceAs (Decidable (l.Chain' fun a b : Block => ¬(a.free = true ∧ b.free = true)))

/-- The `mergeFreeBlocks` loop with an explicit iteration budget: `none`
means the budget ran out before the scan finished.  Each iteration either
merges — strictly shortening the list — or advances the cursor, so any
budget beyond the list length suffices; this is the termination measure
of the C loop, which does not advance after a merge. -/
def mergeFuel (H : Int) : Nat → List Block → Option (List Block)
  | 0, _ => none
  | _ + 1, [] => some []
  | _ + 1, [b] => some [b]
  | fuel + 1, a :: b :: rest =>
    if a.free ∧ b.free then
      mergeFuel H fuel ({ a with size := a.size + H + b.size } :: rest)
    else
      (mergeFuel H fuel (b :: rest)).map fun tl => a :: tl

/-- The first-fit loop of `allocate` with an explicit iteration budget
(outer `none` = budget ran out; the inner option is the loop's own
found/not-found result). -/
def allocFuel (H size : Int) : Nat → List Block → Option (Option (List Block × Nat))
  | 0, _ => none
  | _ + 1, [] => some none
  | fuel + 1, b :: rest =>
    if b.free ∧ size ≤ b.size then
      if size + H < b.size then some (some (splitBlock H b size ++ rest, 0))
      else some (some ({ b with free := false } :: rest, 0))
    else
      (allocFuel H size fuel rest).map fun r => r.map fun p => (b :: p.1, p.2 + 1)

/-! ## Characterization of the first-fit loop -/

/-- If no block of `l` is both free and large enough, the search loop of
`allocate` falls off the end of the list and reports failure. -/
theorem allocGo_none_of_no_fit (H size : Int) (l : List Block)
    (h : ∀ b ∈ l, ¬(b.free = true ∧ size ≤ b.size)) :
    allocGo H size l = none := by
  induction l with
  | nil => rfl
  | cons b rest ih =>
    have hb : ¬(b.free = true ∧ size ≤ b.size) := h b (List.mem_cons_self ..)
    simp only [allocGo, if_neg hb, ih fun c hc => h c (List.mem_cons_of_mem _ hc)]

/-- Full characterization of a successful first-fit search: the chosen
index holds a free, large-enough block, every earlier block fails the
fit test, and the updated list replaces exactly that block by the result
of `splitBlock` (when the leftover exceeds one header) or by the same
block marked allocated. -/
theorem allocGo_spec (H size : Int) (l : List Block) :
    ∀ (l2 : List Block) (i : Nat), allocGo H size l = some (l2, i) →
      ∃ b, l[i]? = some b ∧ b.free = true ∧ size ≤ b.size ∧
        (∀ j, j < i → ∀ c, l[j]? = some c → ¬(c.free = true ∧ size ≤ c.size)) ∧
        l2 = l.take i ++
          (if size + H < b.size then splitBlock H b size
            else [{ b with free := false }]) ++ l.drop (i + 1) := by
  induction l with
  | nil => intro l2 i h; simp [allocGo] at h
  | cons b rest ih =>
    intro l2 i h
    simp only [allocGo] at h
    split at h
    case isTrue hb =>
      split at h
      case isTrue hs =>
        simp only [Option.some.injEq, Prod.mk.injEq] at h
        obtain ⟨rfl, rfl⟩ := h
        refine ⟨b, by simp, hb.1, hb.2, fun j hj => absurd hj (by omega), ?_⟩
        simp [if_pos hs]
      case isFalse hs =>
        simp only [Option.some.injEq, Prod.mk.injEq] at h
        obtain ⟨rfl, rfl⟩ := h
        refine ⟨b, by simp, hb.1, hb.2, fun j hj => absurd hj (by omega), ?_⟩
        simp [if_neg hs]
    case isFalse hb =>
      cases hrec : allocGo H size rest with
      | none => rw [hrec] at h; cases h
      | some p =>
        obtain ⟨l1, i1⟩ := p
        rw [hrec] at h
        simp only [Option.some.injEq, Prod.mk.injEq] at h
        obtain ⟨rfl, rfl⟩ := h
        obtain ⟨c, hc, hcf, hcs, hprev, hstruct⟩ := ih l1 i1 hrec
        refine ⟨c, by simpa using hc, hcf, hcs, ?_, ?_⟩
        · intro j hj d hd
          cases j with
          | zero =>
            simp only [List.getElem?_cons_zero, Option.some.injEq] at hd
            subst hd
            exact hb
          | succ j1 =>
            simp only [List.getElem?_cons_succ] at hd
            exact hprev j1 (by omega) d hd
        · simp only [List.take_succ_cons, List.drop_succ_cons, List.cons_append]
          rw [hstruct]

/-- An index returned by the search loop is in bounds. -/
theorem allocGo_idx_lt (H size : Int) (l l2 : List Block) (i : Nat)
    (h : allocGo H size l = some (l2, i)) : i < l.length := by
  obtain ⟨b, hb, -⟩ := allocGo_spec H size l l2 i h
  by_contra hl
  rw [List.getElem?_eq_none (by omega)] at hb
  cases hb

/-! ## C2, C3, C6, C7, C9, C10 -/

/-- C2: first-fit selection and its determinism.  A successful search
returns the index of a block that is free and at least as large as the
request, every earlier block fails that test, and `allocate` hands back
the arena offset one header past that block's start — the first payload
byte.  Determinism of repeated calls from identical states is definitional
in the embedding: `allocate` is a pure function of the state, so two calls
with the same `size` on equal states return equal results. -/
theorem first_fit_selection (C H size : Int) (l l2 : List Block) (i : Nat)
    (hpos : 0 < size) (hcap : size ≤ C)
    (h : allocGo H size l = some (l2, i)) :
    (∃ b, l[i]? = some b ∧ b.free = true ∧ size ≤ b.size) ∧
    (∀ j, j < i → ∀ c, l[j]? = some c → ¬(c.free = true ∧ size ≤ c.size)) ∧
    (allocate C H size (some l)).2 = some (blockStart H l i + H) := by
  obtain ⟨b, hb, hbf, hbs, hprev, -⟩ := allocGo_spec H size l l2 i h
  have hval : ¬(size ≤ 0 ∨ C < size) := by omega
  exact ⟨⟨b, hb, hbf, hbs⟩, hprev, by simp [allocate, hval, h]⟩

theorem first_fit_selection_witness :
    (0 : Int) < 10 ∧ (10 : Int) ≤ 102400 ∧
    allocGo 16 10 [⟨4, true⟩, ⟨20, false⟩, ⟨50, true⟩]
      = some ([⟨4, true⟩, ⟨20, false⟩, ⟨10, false⟩, ⟨24, true⟩], 2) ∧
    ((∃ b, ([⟨4, true⟩, ⟨20, false⟩, ⟨50, true⟩] : List Block)[2]? = some b ∧
        b.free = true ∧ (10 : Int) ≤ b.size) ∧
      (∀ j, j < 2 → ∀ c, ([⟨4, true⟩, ⟨20, false⟩, ⟨50, true⟩] : List Block)[j]? = some c →
        ¬(c.free = true ∧ (10 : Int) ≤ c.size)) ∧
      (allocate 102400 16 10 (some [⟨4, true⟩, ⟨20, false⟩, ⟨50, true⟩])).2
        = some (blockStart 16 [⟨4, true⟩, ⟨20, false⟩, ⟨50, true⟩] 2 + 16)) :=
  ⟨by decide, by decide, by decide,
    first_fit_selection 102400 16 10 [⟨4, true⟩, ⟨20, false⟩, ⟨50, true⟩]
      [⟨4, true⟩, ⟨20, false⟩, ⟨10, false⟩, ⟨24, true⟩] 2 (by decide) (by decide) (by decide)⟩

/-- C3: split/no-split postcondition.  When the selected block's size
strictly exceeds `size + header_size`, the block is replaced by an
allocated block of exactly `size` followed by a new free block of
`old_size - size - header_size`; otherwise the whole block is only marked
allocated and keeps its original size field. -/
theorem split_postcondition (H size : Int) (l l2 : List Block) (i : Nat) (b : Block)
    (h : allocGo H size l = some (l2, i)) (hb : l[i]? = some b) :
    (size + H < b.size →
      l2 = l.take i ++ [⟨size, false⟩, ⟨b.size - size - H, true⟩] ++ l.drop (i + 1)) ∧
    (b.size ≤ size + H →
      l2 = l.take i ++ [⟨b.size, false⟩] ++ l.drop (i + 1)) := by
  obtain ⟨c, hc, -, -, -, hstruct⟩ := allocGo_spec H size l l2 i h
  rw [hb] at hc
  obtain rfl : b = c := by cases hc; rfl
  constructor
  · intro hs
    rw [hstruct, if_pos hs]
    rfl
  · intro hs
    rw [hstruct, if_neg (by omega)]

theorem split_postcondition_witness :
    allocGo 16 10 [⟨100, true⟩] = some ([⟨10, false⟩, ⟨74, true⟩], 0) ∧
    ([⟨100, true⟩] : List Block)[0]? = some ⟨100, true⟩ ∧
    (((10 : Int) + 16 < (100 : Int) →
      [⟨10, false⟩, ⟨74, true⟩] = ([⟨100, true⟩] : List Block).take 0 ++
        [⟨10, false⟩, ⟨(100 : Int) - 10 - 16, true⟩] ++ ([⟨100, true⟩] : List Block).drop 1) ∧
      ((100 : Int) ≤ 10 + 16 →
        [⟨10, false⟩, ⟨74, true⟩] = ([⟨100, true⟩] : List Block).take 0 ++
          [⟨(100 : Int), false⟩] ++ ([⟨100, true⟩] : List Block).drop 1)) :=
  ⟨by decide, by decide,
    split_postcondition 16 10 [⟨100, true⟩] [⟨10, false⟩, ⟨74, true⟩] 0 ⟨100, true⟩
      (by decide) (by decide)⟩

/-- C6: failure is the absent result.  `allocate` answers `none` (the C
`NULL`) for every non-positive or over-capacity request, and for every
valid request when no block of the list is simultaneously free and large
enough; in particular `allocate 0` and `allocate (C+1)` answer `none`
from every state.  The embedding is a total function, so no other failure
signal can occur. -/
theorem allocate_failure_none (C H size : Int) (st : Option (List Block)) :
    ((size ≤ 0 ∨ C < size) → (allocate C H size st).2 = none) ∧
    (∀ l, st = some l → (∀ b ∈ l, b.free = true → b.size < size) →
      (allocate C H size st).2 = none) ∧
    (allocate C H 0 st).2 = none ∧
    (allocate C H (C + 1) st).2 = none := by
  refine ⟨fun hbad => by simp [allocate, hbad], ?_, ?_, ?_⟩
  · rintro l rfl hnofit
    by_cases hbad : size ≤ 0 ∨ C < size
    · simp [allocate, hbad]
    · have hnone : allocGo H size l = none :=
        allocGo_none_of_no_fit H size l fun b hb hfit =>
          absurd hfit.2 (by have := hnofit b hb hfit.1; omega)
      simp [allocate, hbad, hnone]
  · simp [allocate]
  · simp [allocate]

theorem allocate_failure_none_witness :
    (allocate 102400 16 0 (some [⟨102384, true⟩])).2 = none :=
  (allocate_failure_none 102400 16 0 (some [⟨102384, true⟩])).2.2.1

/-- C7: frame condition of `allocate`.  A successful call rewrites the
list as an unchanged prefix, at most two block headers (the chosen block,
and the carved-off remainder when a split occurs), and an unchanged
suffix; every block before the chosen index is bit-for-bit unchanged, and
the blocks after it are exactly the old suffix.  In the embedding the
`next` links are the list structure, so preserving the prefix and suffix
preserves them too. -/
theorem allocate_frame (C H size : Int) (l l2 : List Block)
    (h1 : (allocate C H size (some l)).1 = some l2)
    (h2 : (allocate C H size (some l)).2 ≠ none) :
    ∃ i mid, mid.length ≤ 2 ∧ l2 = l.take i ++ mid ++ l.drop (i + 1) ∧
      ∀ j, j < i → l2[j]? = l[j]? := by
  by_cases hbad : size ≤ 0 ∨ C < size
  · exact absurd (by simp [allocate, hbad]) h2
  cases hrec : allocGo H size l with
  | none => exact absurd (by simp [allocate, hbad, hrec]) h2
  | some p =>
    obtain ⟨l3, i⟩ := p
    obtain rfl : l2 = l3 := by
      have := h1
      simp only [allocate, if_neg hbad, hrec, Option.some.injEq] at this
      exact this.symm
    obtain ⟨b, hb, -, -, -, hstruct⟩ := allocGo_spec H size l l2 i hrec
    have hi : i < l.length := allocGo_idx_lt H size l l2 i hrec
    have hlen : (l.take i).length = i := by simp; omega
    refine ⟨i, _, ?_, hstruct, ?_⟩
    · split <;> simp [splitBlock]
    · intro j hj
      rw [hstruct, List.append_assoc,
        List.getElem?_append_left (by omega : j < (l.take i).length),
        List.getElem?_take, if_pos hj]

theorem allocate_frame_witness :
    (allocate 102400 16 10 (some [⟨4, true⟩, ⟨50, true⟩])).1
      = some [⟨4, true⟩, ⟨10, false⟩, ⟨24, true⟩] ∧
    (allocate 102400 16 10 (some [⟨4, true⟩, ⟨50, true⟩])).2 ≠ none ∧
    ∃ i mid, mid.length ≤ 2 ∧
      ([⟨4, true⟩, ⟨10, false⟩, ⟨24, true⟩] : List Block)
        = ([⟨4, true⟩, ⟨50, true⟩] : List Block).take i ++ mid ++
          ([⟨4, true⟩, ⟨50, true⟩] : List Block).drop (i + 1) ∧
      ∀ j, j < i → ([⟨4, true⟩, ⟨10, false⟩, ⟨24, true⟩] : List Block)[j]?
        = ([⟨4, true⟩, ⟨50, true⟩] : List Block)[j]? :=
  ⟨by decide, by decide,
    allocate_frame 102400 16 10 [⟨4, true⟩, ⟨50, true⟩]
      [⟨4, true⟩, ⟨10, false⟩, ⟨24, true⟩] (by decide) (by decide)⟩

/-- C9: `deallocate` of the absent reference is a no-op: the state — every
block header, every link, and the free-list head — is returned unchanged,
exactly the early `if (!ptr) return;` of the C code. -/
theorem deallocate_null_noop (H : Int) (st : Option (List Block)) :
    deallocate H none st = st :=
  rfl

/-- C10: invalid-size rejection is atomic and precedes lazy
initialization.  A non-positive or over-capacity request returns `none`
with the state — even the uninitialized one — untouched; by contrast, the
first call with a size in `(0, C]` on the fresh arena installs the single
initial free block of size `C - H`, and does so even when the request then
finds no fitting block (`C - H < n`) and fails. -/
theorem invalid_size_atomic (C H size n : Int) (st : Option (List Block)) :
    ((size ≤ 0 ∨ C < size) → allocate C H size st = (st, none)) ∧
    (0 < n → n ≤ C → ∃ l, (allocate C H n none).1 = some l) ∧
    (0 < n → n ≤ C → C - H < n → allocate C H n none = (some (initList C H), none)) := by
  refine ⟨fun hbad => by simp [allocate, hbad], ?_, ?_⟩
  · intro h1 h2
    have hval : ¬(n ≤ 0 ∨ C < n) := by omega
    cases hrec : allocGo H n (initList C H) with
    | none => exact ⟨initList C H, by simp [allocate, hval, hrec]⟩
    | some p => exact ⟨p.1, by simp [allocate, hval, hrec]⟩
  · intro h1 h2 h3
    have hval : ¬(n ≤ 0 ∨ C < n) := by omega
    have hno : ¬(n ≤ C - H) := by omega
    simp [allocate, allocGo, initList, hval, hno]

theorem invalid_size_atomic_witness :
    allocate 102400 16 0 (some [⟨7, false⟩]) = (some [⟨7, false⟩], none) ∧
    (0 : Int) < 102390 ∧ (102390 : Int) ≤ 102400 ∧ (102400 : Int) - 16 < 102390 ∧
    allocate 102400 16 102390 none = (some (initList 102400 16), none) :=
  ⟨(invalid_size_atomic 102400 16 0 102390 (some [⟨7, false⟩])).1 (by decide),
    by decide, by decide, by decide,
    (invalid_size_atomic 102400 16 0 102390 (some [⟨7, false⟩])).2.2
      (by decide) (by decide) (by decide)⟩

/-! ## The coalescing pass -/

/-- The coalescing pass never unlinks the head block: merging absorbs the
second block of a free pair into the first, so the result starts with a
block carrying the original head's free flag (its size possibly grown). -/
theorem mergeFreeBlocks_head_aux (H : Int) :
    ∀ (n : Nat) (b : Block) (l : List Block), l.length ≤ n →
      ∃ s tl, mergeFreeBlocks H (b :: l) = Block.mk s b.free :: tl := by
  intro n
  induction n with
  | zero =>
    intro b l hl
    obtain rfl : l = [] := by
      cases l with
      | nil => rfl
      | cons c r => simp at hl
    exact ⟨b.size, [], by simp [mergeFreeBlocks]⟩
  | succ n ih =>
    intro b l hl
    cases l with
    | nil => exact ⟨b.size, [], by simp [mergeFreeBlocks]⟩
    | cons c rest =>
      by_cases hf : b.free = true ∧ c.free = true
      · obtain ⟨s, tl, h2⟩ :=
          ih { b with size := b.size + H + c.size } rest (by simp at hl; omega)
        refine ⟨s, tl, ?_⟩
        rw [show mergeFreeBlocks H (b :: c :: rest)
            = mergeFreeBlocks H ({ b with size := b.size + H + c.size } :: rest) from by
          simp only [mergeFreeBlocks, if_pos hf]]
        rw [h2]
      · refine ⟨b.size, mergeFreeBlocks H (c :: rest), ?_⟩
        rw [show mergeFreeBlocks H (b :: c :: rest) = b :: mergeFreeBlocks H (c :: rest) from by
          simp only [mergeFreeBlocks, if_neg hf]]

/-- After a full coalescing pass no two list-adjacent blocks are both
free: a merge re-examines the merged block against its new right
neighbor before advancing, so every free pair — wherever it sits — is
collapsed. -/
theorem noAdjFree_mergeFreeBlocks (H : Int) (l : List Block) :
    noAdjFree (mergeFreeBlocks H l) := by
  induction l using mergeFreeBlocks.induct (H := H) with
  | case1 => simp [mergeFreeBlocks, noAdjFree]
  | case2 b => simp [mergeFreeBlocks, noAdjFree]
  | case3 a b rest hf ih =>
    rw [show mergeFreeBlocks H (a :: b :: rest)
        = mergeFreeBlocks H ({ size := a.size + H + b.size, free := a.free } :: rest) from by
      simp only [mergeFreeBlocks, if_pos hf]]
    exact ih
  | case4 a b rest hf ih =>
    rw [show mergeFreeBlocks H (a :: b :: rest) = a :: mergeFreeBlocks H (b :: rest) from by
      simp only [mergeFreeBlocks, if_neg hf]]
    obtain ⟨s, tl, hh⟩ := mergeFreeBlocks_head_aux H rest.length b rest le_rfl
    rw [hh] at ih ⊢
    exact List.chain'_cons.mpr ⟨fun hc => hf ⟨hc.1, hc.2⟩, ih⟩

/-! ## C4 -/

/-- C4 as stated is refuted by the null call: `deallocate` of the absent
reference returns immediately, before the coalescing pass, so a
pre-existing adjacent free pair survives that call. -/
theorem dealloc_no_adjacent_free_cex :
    deallocate 16 none (some [⟨0, true⟩, ⟨0, true⟩]) = some [⟨0, true⟩, ⟨0, true⟩] ∧
    ¬ noAdjFree [⟨0, true⟩, ⟨0, true⟩] :=
  ⟨rfl, fun h => (List.chain'_cons.mp h).1 ⟨rfl, rfl⟩⟩

/-- C4 (amended to deallocate calls that pass a present reference): after
any `deallocate` with a non-null pointer returns, no two list-adjacent
blocks are both free — whichever block was freed, and even when the
pre-state already contained adjacent free pairs elsewhere, because the
coalescing pass scans the entire list. -/
theorem dealloc_no_adjacent_free (H p : Int) (st : Option (List Block)) (l2 : List Block)
    (h : deallocate H (some p) st = some l2) : noAdjFree l2 := by
  cases st with
  | none => cases h
  | some l =>
    simp only [deallocate, Option.some.injEq] at h
    rw [← h]
    exact noAdjFree_mergeFreeBlocks H _

theorem dealloc_no_adjacent_free_witness :
    deallocate 16 (some 16) (some [⟨5, true⟩, ⟨3, true⟩]) = some [⟨24, true⟩] ∧
    noAdjFree [⟨24, true⟩] :=
  ⟨by simp [deallocate, markFree, mergeFreeBlocks],
    dealloc_no_adjacent_free 16 16 (some [⟨5, true⟩, ⟨3, true⟩]) [⟨24, true⟩]
      (by simp [deallocate, markFree, mergeFreeBlocks])⟩

/-! ## C8 -/

/-- A budget beyond the list length lets the fueled coalescing loop
finish and agree with `mergeFreeBlocks`. -/
theorem mergeFuel_eq (H : Int) :
    ∀ (fuel : Nat) (l : List Block), l.length < fuel →
      mergeFuel H fuel l = some (mergeFreeBlocks H l) := by
  intro fuel
  induction fuel with
  | zero => intro l hl; omega
  | succ fuel ih =>
    intro l hl
    match l with
    | [] => simp [mergeFuel, mergeFreeBlocks]
    | [b] => simp [mergeFuel, mergeFreeBlocks]
    | a :: b :: rest =>
      by_cases hf : a.free = true ∧ b.free = true
      · rw [show mergeFuel H (fuel + 1) (a :: b :: rest)
            = mergeFuel H fuel ({ a with size := a.size + H + b.size } :: rest) from by
          simp only [mergeFuel, if_pos hf],
          ih _ (by simp at hl ⊢; omega),
          show mergeFreeBlocks H (a :: b :: rest)
            = mergeFreeBlocks H ({ a with size := a.size + H + b.size } :: rest) from by
          simp only [mergeFreeBlocks, if_pos hf]]
      · rw [show mergeFuel H (fuel + 1) (a :: b :: rest)
            = (mergeFuel H fuel (b :: rest)).map (fun tl => a :: tl) from by
          simp only [mergeFuel, if_neg hf],
          ih _ (by simp at hl ⊢; omega),
          show mergeFreeBlocks H (a :: b :: rest) = a :: mergeFreeBlocks H (b :: rest) from by
          simp only [mergeFreeBlocks, if_neg hf]]
        rfl

/-- A budget beyond the list length lets the fueled first-fit loop finish
and agree with `allocGo`. -/
theorem allocFuel_eq (H size : Int) :
    ∀ (fuel : Nat) (l : List Block), l.length < fuel →
      allocFuel H size fuel l = some (allocGo H size l) := by
  intro fuel
  induction fuel with
  | zero => intro l hl; omega
  | succ fuel ih =>
    intro l hl
    match l with
    | [] => simp [allocFuel, allocGo]
    | b :: rest =>
      by_cases hb : b.free = true ∧ size ≤ b.size
      · simp only [allocFuel, allocGo, if_pos hb]
        split <;> rfl
      · cases hrec : allocGo H size rest with
        | none => simp [allocFuel, allocGo, hb, hrec, ih rest (by simp at hl; omega)]
        | some p => simp [allocFuel, allocGo, hb, hrec, ih rest (by simp at hl; omega)]

/-- C8: termination.  Run with any iteration budget larger than the list
length, the fueled first-fit and coalescing loops complete (they never
report an exhausted budget) and compute exactly `allocGo` and
`mergeFreeBlocks`: `allocate` advances every iteration, and the
coalescing pass — although it stays on the current block after a merge —
strictly shortens the list with every merge, so both loops terminate on
every finite list. -/
theorem allocator_terminates (H size : Int) (l : List Block) (fuel : Nat)
    (h : l.length < fuel) :
    mergeFuel H fuel l = some (mergeFreeBlocks H l) ∧
    allocFuel H size fuel l = some (allocGo H size l) :=
  ⟨mergeFuel_eq H fuel l h, allocFuel_eq H size fuel l h⟩

theorem allocator_terminates_witness :
    ([⟨0, true⟩, ⟨0, true⟩] : List Block).length < 3 ∧
    (mergeFuel 16 3 [⟨0, true⟩, ⟨0, true⟩] = some (mergeFreeBlocks 16 [⟨0, true⟩, ⟨0, true⟩]) ∧
      allocFuel 16 1 3 [⟨0, true⟩, ⟨0, true⟩] = some (allocGo 16 1 [⟨0, true⟩, ⟨0, true⟩])) :=
  ⟨by decide, allocator_terminates 16 1 [⟨0, true⟩, ⟨0, true⟩] 3 (by decide)⟩

/-! ## C5 -/

/-- C5: full round trip on a fresh arena.  With capacity `C` and header
size `H`, `allocate n` for `0 < n ≤ C` succeeds exactly when
`n ≤ C - H`; and deallocating the returned reference restores the single
initial free block of size `C - H`, whether the allocation split the
block (the two free pieces coalesce back) or consumed it whole. -/
theorem full_round_trip (C H n : Int) (h1 : 0 < n) (h2 : n ≤ C) :
    ((allocate C H n none).2 ≠ none ↔ n ≤ C - H) ∧
    (n ≤ C - H →
      deallocate H (allocate C H n none).2 (allocate C H n none).1
        = some (initList C H)) := by
  have hval : ¬(n ≤ 0 ∨ C < n) := by omega
  by_cases hfit : n ≤ C - H
  · by_cases hsplit : n + H < C - H
    · have hgo : allocGo H n (initList C H)
          = some ([⟨n, false⟩, ⟨C - H - n - H, true⟩], 0) := by
        simp only [initList, allocGo]
        rw [if_pos ⟨trivial, hfit⟩, if_pos hsplit]
        simp [splitBlock]
      have halloc : allocate C H n none
          = (some [⟨n, false⟩, ⟨C - H - n - H, true⟩], some (0 + H)) := by
        simp only [allocate, if_neg hval, hgo, blockStart]
      refine ⟨by rw [halloc]; simp [hfit], fun _ => ?_⟩
      rw [halloc]
      show some (mergeFreeBlocks H
        (markFree H (0 + H - H) 0 [⟨n, false⟩, ⟨C - H - n - H, true⟩])) = some (initList C H)
      rw [show (0 : Int) + H - H = 0 from by ring]
      have hmark : markFree H 0 0 [⟨n, false⟩, ⟨C - H - n - H, true⟩]
          = [⟨n, true⟩, ⟨C - H - n - H, true⟩] := by
        simp [markFree]
      rw [hmark]
      have hmerge : mergeFreeBlocks H [⟨n, true⟩, ⟨C - H - n - H, true⟩]
          = [⟨n + H + (C - H - n - H), true⟩] := by
        simp [mergeFreeBlocks]
      rw [hmerge, show n + H + (C - H - n - H) = C - H from by ring, initList]
    · have hgo : allocGo H n (initList C H) = some ([⟨C - H, false⟩], 0) := by
        simp only [initList, allocGo]
        rw [if_pos ⟨trivial, hfit⟩, if_neg hsplit]
      have halloc : allocate C H n none
          = (some [⟨C - H, false⟩], some (0 + H)) := by
        simp only [allocate, if_neg hval, hgo, blockStart]
      refine ⟨by rw [halloc]; simp [hfit], fun _ => ?_⟩
      rw [halloc]
      show some (mergeFreeBlocks H (markFree H (0 + H - H) 0 [⟨C - H, false⟩]))
        = some (initList C H)
      rw [show (0 : Int) + H - H = 0 from by ring]
      have hmark : markFree H 0 0 [⟨C - H, false⟩] = [⟨C - H, true⟩] := by
        simp [markFree]
      rw [hmark]
      simp [mergeFreeBlocks, initList]
  · have hgo : allocGo H n (initList C H) = none := by
      simp only [initList, allocGo]
      rw [if_neg fun h => hfit h.2]
    have halloc : allocate C H n none = (some (initList C H), none) := by
      simp only [allocate, if_neg hval, hgo]
    exact ⟨by rw [halloc]; simp [hfit], fun hf => absurd hf hfit⟩

theorem full_round_trip_witness :
    (0 : Int) < 100000 ∧ (100000 : Int) ≤ 102400 ∧
    (((allocate 102400 16 100000 none).2 ≠ none ↔ (100000 : Int) ≤ 102400 - 16) ∧
      ((100000 : Int) ≤ 102400 - 16 →
        deallocate 16 (allocate 102400 16 100000 none).2 (allocate 102400 16 100000 none).1
          = some (initList 102400 16))) :=
  ⟨by decide, by decide, full_round_trip 102400 16 100000 (by decide) (by decide)⟩

/-! ## C1: coverage invariant -/

theorem extent_nil (H : Int) : extent H [] = 0 := rfl

theorem extent_cons (H : Int) (b : Block) (l : List Block) :
    extent H (b :: l) = H + b.size + extent H l := by
  simp [extent]

/-- The first-fit mutation conserves the total arena extent: a split
replaces one block of extent `H + s` by two blocks of extents
`H + size` and `H + (s - size - H)`, and the no-split case only flips a
flag. -/
theorem allocGo_extent (H size : Int) (l : List Block) :
    ∀ (l2 : List Block) (i : Nat), allocGo H size l = some (l2, i) →
      extent H l2 = extent H l := by
  induction l with
  | nil => intro l2 i h; cases h
  | cons b rest ih =>
    intro l2 i h
    simp only [allocGo] at h
    split at h
    case isTrue hb =>
      split at h <;>
        (simp only [Option.some.injEq, Prod.mk.injEq] at h
         obtain ⟨rfl, rfl⟩ := h)
      · simp only [splitBlock, List.cons_append, List.nil_append,
          extent_cons]
        ring
      · simp only [extent_cons]
    case isFalse hb =>
      cases hrec : allocGo H size rest with
      | none => rw [hrec] at h; cases h
      | some p =>
        obtain ⟨l1, i1⟩ := p
        rw [hrec] at h
        simp only [Option.some.injEq, Prod.mk.injEq] at h
        obtain ⟨rfl, rfl⟩ := h
        simp only [extent_cons, ih l1 i1 hrec]

/-- The first-fit mutation keeps every size field non-negative: the
allocated block gets the positive request, and the carved-off remainder
gets `s - size - H`, positive by the split guard. -/
theorem allocGo_sizes (H size : Int) (hH : 0 ≤ H) (hpos : 0 < size) (l : List Block) :
    ∀ (l2 : List Block) (i : Nat), allocGo H size l = some (l2, i) →
      (∀ b ∈ l, 0 ≤ b.size) → ∀ b ∈ l2, 0 ≤ b.size := by
  induction l with
  | nil => intro l2 i h; cases h
  | cons b rest ih =>
    intro l2 i h hl
    simp only [allocGo] at h
    split at h
    case isTrue hb =>
      split at h <;>
        (simp only [Option.some.injEq, Prod.mk.injEq] at h
         obtain ⟨rfl, rfl⟩ := h)
      case isTrue hs =>
        intro c hc
        simp only [splitBlock, List.cons_append, List.nil_append, List.mem_cons] at hc
        rcases hc with rfl | rfl | hc
        · exact Int.le_of_lt hpos
        · show (0 : Int) ≤ b.size - size - H
          omega
        · exact hl c (List.mem_cons_of_mem _ hc)
      case isFalse hs =>
        intro c hc
        rcases List.mem_cons.mp hc with rfl | hc
        · exact hl b (List.mem_cons_self ..)
        · exact hl c (List.mem_cons_of_mem _ hc)
    case isFalse hb =>
      cases hrec : allocGo H size rest with
      | none => rw [hrec] at h; cases h
      | some p =>
        obtain ⟨l1, i1⟩ := p
        rw [hrec] at h
        simp only [Option.some.injEq, Prod.mk.injEq] at h
        obtain ⟨rfl, rfl⟩ := h
        intro c hc
        rcases List.mem_cons.mp hc with rfl | hc
        · exact hl c (List.mem_cons_self ..)
        · exact ih l1 i1 hrec (fun d hd => hl d (List.mem_cons_of_mem _ hd)) c hc

/-- Freeing a block only flips its flag: the extent is untouched. -/
theorem markFree_extent (H p : Int) : ∀ (off : Int) (l : List Block),
    extent H (markFree H p off l) = extent H l := by
  intro off l
  induction l generalizing off with
  | nil => rfl
  | cons b rest ih =>
    simp only [markFree]
    split
    · simp only [extent_cons]
    · simp only [extent_cons, ih]

/-- Freeing a block only flips its flag: every size field survives. -/
theorem markFree_sizes (H p : Int) : ∀ (off : Int) (l : List Block),
    (∀ b ∈ l, 0 ≤ b.size) → ∀ b ∈ markFree H p off l, 0 ≤ b.size := by
  intro off l
  induction l generalizing off with
  | nil => intro _ b hb; cases hb
  | cons b rest ih =>
    intro hl c hc
    simp only [markFree] at hc
    split at hc
    · rcases List.mem_cons.mp hc with rfl | hc
      · exact hl b (List.mem_cons_self ..)
      · exact hl c (List.mem_cons_of_mem _ hc)
    · rcases List.mem_cons.mp hc with rfl | hc
      · exact hl c (List.mem_cons_self ..)
      · exact ih _ (fun d hd => hl d (List.mem_cons_of_mem _ hd)) c hc

/-- A merge conserves the total extent: the absorbed header's `H` bytes
move into the surviving block's size. -/
theorem mergeFreeBlocks_extent (H : Int) (l : List Block) :
    extent H (mergeFreeBlocks H l) = extent H l := by
  induction l using mergeFreeBlocks.induct (H := H) with
  | case1 => rw [show mergeFreeBlocks H ([] : List Block) = [] from by simp [mergeFreeBlocks]]
  | case2 b => rw [show mergeFreeBlocks H [b] = [b] from by simp [mergeFreeBlocks]]
  | case3 a b rest hf ih =>
    rw [show mergeFreeBlocks H (a :: b :: rest)
        = mergeFreeBlocks H ({ size := a.size + H + b.size, free := a.free } :: rest) from by
      simp only [mergeFreeBlocks, if_pos hf]]
    rw [ih]
    simp only [extent_cons]
    ring
  | case4 a b rest hf ih =>
    rw [show mergeFreeBlocks H (a :: b :: rest) = a :: mergeFreeBlocks H (b :: rest) from by
      simp only [mergeFreeBlocks, if_neg hf]]
    simp only [extent_cons, ih]

/-- A merge keeps every size field non-negative (header sizes are). -/
theorem mergeFreeBlocks_sizes (H : Int) (hH : 0 ≤ H) (l : List Block)
    (hl : ∀ b ∈ l, 0 ≤ b.size) : ∀ b ∈ mergeFreeBlocks H l, 0 ≤ b.size := by
  induction l using mergeFreeBlocks.induct (H := H) with
  | case1 =>
    rw [show mergeFreeBlocks H ([] : List Block) = [] from by simp [mergeFreeBlocks]]
    intro b hb
    cases hb
  | case2 b =>
    rw [show mergeFreeBlocks H [b] = [b] from by simp [mergeFreeBlocks]]
    exact hl
  | case3 a b rest hf ih =>
    rw [show mergeFreeBlocks H (a :: b :: rest)
        = mergeFreeBlocks H ({ size := a.size + H + b.size, free := a.free } :: rest) from by
      simp only [mergeFreeBlocks, if_pos hf]]
    refine ih ?_
    intro c hc
    rcases List.mem_cons.mp hc with rfl | hc
    · have ha := hl a (List.mem_cons_self ..)
      have hb2 := hl b (List.mem_cons_of_mem _ (List.mem_cons_self ..))
      show (0 : Int) ≤ a.size + H + b.size
      omega
    · exact hl c (List.mem_cons_of_mem _ (List.mem_cons_of_mem _ hc))
  | case4 a b rest hf ih =>
    rw [show mergeFreeBlocks H (a :: b :: rest) = a :: mergeFreeBlocks H (b :: rest) from by
      simp only [mergeFreeBlocks, if_neg hf]]
    intro c hc
    rcases List.mem_cons.mp hc with rfl | hc
    · exact hl c (List.mem_cons_self ..)
    · exact ih (fun d hd => hl d (List.mem_cons_of_mem _ hd)) c hc

/-- One allocator call preserves the coverage invariant (and establishes
it when the call performs the lazy initialization). -/
theorem step_covers (C H : Int) (hH : 0 ≤ H) (hC : H ≤ C) (st : Option (List Block))
    (hst : ∀ l, st = some l → covers C H l) (op : Op) :
    ∀ l, step C H st op = some l → covers C H l := by
  have hinit : covers C H (initList C H) := by
    refine ⟨?_, ?_⟩
    · simp only [initList, extent_cons, extent_nil]
      ring
    · intro b hb
      rcases List.mem_cons.mp hb with rfl | hb
      · show (0 : Int) ≤ C - H
        omega
      · cases hb
  cases op with
  | alloc size =>
    by_cases hbad : size ≤ 0 ∨ C < size
    · intro l hl
      exact hst l (by simpa [step, allocate, hbad] using hl)
    · have hpos : 0 < size := by omega
      have key : ∀ l0 : List Block, covers C H l0 →
          ∀ l, (allocate C H size (some l0)).1 = some l → covers C H l := by
        intro l0 hcov l hl
        simp only [allocate, if_neg hbad] at hl
        cases hrec : allocGo H size l0 with
        | none =>
          rw [hrec] at hl
          simp only [Option.some.injEq] at hl
          exact hl ▸ hcov
        | some p =>
          obtain ⟨l1, i1⟩ := p
          rw [hrec] at hl
          simp only [Option.some.injEq] at hl
          subst hl
          exact ⟨(allocGo_extent H size l0 l1 i1 hrec).trans hcov.1,
            allocGo_sizes H size hH hpos l0 l1 i1 hrec hcov.2⟩
      cases st with
      | none =>
        intro l hl
        refine key (initList C H) hinit l ?_
        simpa [step, allocate, hbad] using hl
      | some l0 =>
        intro l hl
        exact key l0 (hst l0 rfl) l (by simpa [step] using hl)
  | dealloc ptr =>
    cases ptr with
    | none => intro l hl; exact hst l (by simpa [step, deallocate] using hl)
    | some p =>
      cases st with
      | none => intro l hl; cases hl
      | some l0 =>
        intro l hl
        simp only [step, deallocate, Option.some.injEq] at hl
        subst hl
        obtain ⟨he, hs⟩ := hst l0 rfl
        refine ⟨?_, ?_⟩
        · rw [mergeFreeBlocks_extent, markFree_extent]
          exact he
        · exact mergeFreeBlocks_sizes H hH _ (markFree_sizes H (p - H) 0 l0 hs)

/-- Every call sequence preserves the coverage invariant. -/
theorem run_covers (C H : Int) (hH : 0 ≤ H) (hC : H ≤ C) :
    ∀ (ops : List Op) (st : Option (List Block)),
      (∀ l, st = some l → covers C H l) →
      ∀ l, run C H st ops = some l → covers C H l := by
  intro ops
  induction ops with
  | nil => intro st hst l hl; exact hst l (by simpa [run] using hl)
  | cons op ops ih =>
    intro st hst l hl
    exact ih (step C H st op) (step_covers C H hH hC st hst op) l
      (by simpa [run] using hl)

/-- C1: coverage invariant.  From the fresh arena, after any sequence of
`allocate`/`deallocate` calls that leaves the allocator initialized, the
blocks reachable from the head — taken in list order from offset 0, each
occupying `H + size` bytes with the next header starting where the
previous payload ends (which the list embedding makes true by
construction, so gaplessness and non-overlap reduce to size accounting) —
have non-negative sizes and total extent exactly `C`: they partition
`[0, C)` with the last block ending at `C`. -/
theorem coverage_invariant (C H : Int) (hH : 0 ≤ H) (hC : H ≤ C)
    (ops : List Op) (l : List Block) (h : run C H none ops = some l) :
    covers C H l :=
  run_covers C H hH hC ops none (fun _ h1 => by cases h1) l h

theorem coverage_invariant_witness :
    (0 : Int) ≤ 16 ∧ (16 : Int) ≤ 102400 ∧
    run 102400 16 none [Op.alloc 128] = some [⟨128, false⟩, ⟨102240, true⟩] ∧
    covers 102400 16 [⟨128, false⟩, ⟨102240, true⟩] :=
  ⟨by decide, by decide, by decide,
    coverage_invariant 102400 16 (by decide) (by decide) [Op.alloc 128]
      [⟨128, false⟩, ⟨102240, true⟩] (by decide)⟩
